import Mathlib

/-!
Shallow embedding of the Adaptive OS Scheduler (src/app.py).

The repository is a single Streamlit application.  Its algorithmic core is:
  * `compute_utilization` (app.py lines 21-31),
  * `simulate_scheduler`  (app.py lines 34-127),
  * the segment-collection part of `plot_gantt` (app.py lines 134-152),
  * and the input validation performed by the "Run Simulation" handler
    (app.py lines 209-229).

Python `dict`s iterate in insertion order, and `dict[k] = v` overwrites in
place while keeping the key's original position; we model the runtime-state
dict as an association list manipulated with exactly those semantics.
Python `min(xs, key=f)` returns the first element attaining the minimal key;
we model it as a left fold that replaces the current best only on a strict
decrease.  Python integers are modelled as `Int`.  Python floats are IEEE-754
binary64 values; every finite binary64 value is a rational, so float-valued
quantities live in `ℚ` here, in two flavours: `compute_utilization` is the
ideal exact-rational value of the sum, while `compute_utilization_fp` models
the program's actual accumulation, rounding after every float operation with
`roundFloat` (round to nearest, ties to even, 53-bit significand, subnormal
clamp) — the distinction matters exactly where a property is about the float
arithmetic itself, such as reorder-invariance of the sum.
The `ZeroDivisionError` raised at app.py line 125 when `sim_time = 0` and
the `st.error` rejection of non-positive parameters in the handler are
modelled with `Except`.
-/

namespace Sched

/-- A task row as assembled by the UI handler: Name, Execution Time `C`,
Period `T`, Deadline `D` (app.py lines 222-229). -/
structure Task where
  Name : String
  C : Int
  T : Int
  D : Int
deriving Repr, DecidableEq

/-- Per-task runtime state (the inner dict created at app.py lines 71-79). -/
structure St where
  C : Int
  T : Int
  D : Int
  next_release : Int
  remaining : Int
  abs_deadline : Int
  misses : Nat
deriving Repr, DecidableEq

/-- The scheduling mode selected in the UI (app.py line 188). -/
inductive Mode where
  | RMS
  | EDF
  | Adaptive
deriving Repr, DecidableEq

/-- The currently active dispatch rule (`current_algo`, app.py lines 56-62). -/
inductive Algo where
  | RMS
  | EDF
deriving Repr, DecidableEq

/-- `compute_utilization` (app.py lines 21-31): folds `total += C / T` over
the tasks, skipping tasks whose period is not positive. -/
def compute_utilization (tasks : List Task) : ℚ :=
  tasks.foldl (fun total t => if (0 : ℚ) < (t.T : ℚ) then total + (t.C : ℚ) / (t.T : ℚ) else total) 0

/-- Fuel-driven binary logarithm: `natLog2Aux fuel n` halves `n` until it
reaches 1, counting the steps.  Structural recursion on the fuel keeps it
evaluable inside the kernel. -/
def natLog2Aux : Nat → Nat → Nat
  | 0, _ => 0
  | fuel + 1, n => if n ≤ 1 then 0 else natLog2Aux fuel (n / 2) + 1

/-- `⌊log₂ n⌋` for positive `n` (`n` itself is always enough fuel). -/
def natLog2 (n : Nat) : Nat := natLog2Aux n n

/-- Whether the positive rational `n / d` is below `2 ^ k`, by integer
cross-multiplication. -/
def qlt2 (n : Int) (d : Nat) (k : Int) : Bool :=
  if 0 ≤ k then n < ((2 ^ k.toNat : Nat) : Int) * (d : Int)
  else n * ((2 ^ (-k).toNat : Nat) : Int) < (d : Int)

/-- `⌊log₂ (n / d)⌋` for a positive rational `n / d`: the integer `e` with
`2 ^ e ≤ n / d < 2 ^ (e + 1)`, located from the bit lengths of numerator and
denominator (the candidate from bit lengths is off by at most one, so a
short comparison chain pins it down). -/
def qlog2 (n : Int) (d : Nat) : Int :=
  let k0 : Int := (natLog2 n.toNat : Int) - (natLog2 d : Int)
  if qlt2 n d (k0 - 1) then k0 - 2
  else if qlt2 n d k0 then k0 - 1
  else if qlt2 n d (k0 + 1) then k0
  else k0 + 1

/-- Round the rational `yn / yd` (with `yd > 0`) to the nearest integer,
ties to even — the IEEE-754 default rounding.  `f` is the floor; the
fractional remainder `rn / yd` is compared with `1/2` by doubling. -/
def roundHalfEven (yn : Int) (yd : Nat) : Int :=
  let f : Int := Int.fdiv yn (yd : Int)
  let rn : Int := yn - f * (yd : Int)
  if 2 * rn < (yd : Int) then f
  else if (yd : Int) < 2 * rn then f + 1
  else if f % 2 = 0 then f else f + 1

/-- Round the positive rational `n / d` to IEEE-754 binary64: locate the
binade, scale so the significand has 53 bits, round to nearest (ties to
even), with the subnormal exponent clamp at `2 ^ (-1074)`.  All arithmetic
is on the numerator and denominator, assembled with `Rat.divInt`. -/
def roundFloatPos (n : Int) (d : Nat) : ℚ :=
  let e := qlog2 n d
  let s := max (e - 52) (-1074)
  if 0 ≤ s then
    Rat.divInt (roundHalfEven n (d * 2 ^ s.toNat) * ((2 ^ s.toNat : Nat) : Int)) 1
  else
    Rat.divInt (roundHalfEven (n * ((2 ^ (-s).toNat : Nat) : Int)) d)
      ((2 ^ (-s).toNat : Nat) : Int)

/-- The binary64 value nearest to a rational (round to nearest, ties to
even), as a rational: every finite binary64 value is one.  Overflow to
infinity is outside the modelled range; it is not reachable from the
concrete inputs this model is evaluated on. -/
def roundFloat (x : ℚ) : ℚ :=
  if x.num = 0 then 0
  else if x.num < 0 then
    Rat.divInt (-(roundFloatPos (-x.num) x.den).num) ((roundFloatPos (-x.num) x.den).den : Int)
  else roundFloatPos x.num x.den

/-- Float addition: the exact sum (formed by cross-multiplication of the
reduced fractions), then binary64 rounding. -/
def fpAdd (a b : ℚ) : ℚ :=
  roundFloat (Rat.divInt (a.num * (b.den : Int) + b.num * (a.den : Int))
    ((a.den : Int) * (b.den : Int)))

/-- Float division: the exact quotient, then binary64 rounding. -/
def fpDiv (a b : ℚ) : ℚ :=
  roundFloat (Rat.divInt (a.num * (b.den : Int)) ((a.den : Int) * b.num))

/-- `compute_utilization` (app.py lines 21-31) at actual float precision:
`float(...)` conversion, `C / T` and the running `total +=` each round to
binary64, exactly as the Python accumulation of IEEE doubles does. -/
def compute_utilization_fp (tasks : List Task) : ℚ :=
  tasks.foldl (fun total t =>
    let C := roundFloat (t.C : ℚ)
    let T := roundFloat (t.T : ℚ)
    if 0 < T then fpAdd total (fpDiv C T) else total) 0

/-- Python `dict` insertion `d[k] = v`: overwrite in place if the key is
present, otherwise append at the end (insertion order preserved). -/
def dictInsert (d : List (String × St)) (k : String) (v : St) : List (String × St) :=
  match d with
  | [] => [(k, v)]
  | (k1, v1) :: rest => if k1 = k then (k, v) :: rest else (k1, v1) :: dictInsert rest k v

/-- The runtime-state dict built at app.py lines 65-79: one zeroed entry per
task, keyed by name. -/
def initState (tasks : List Task) : List (String × St) :=
  tasks.foldl (fun d t => dictInsert d t.Name ⟨t.C, t.T, t.D, 0, 0, 0, 0⟩) []

/-- The body of the release loop for one task (app.py lines 88-96): if the
task is due (`time >= next_release`), record a miss when the previous job is
unfinished past its deadline, then release a new job.  Returns the new state
and the number of misses recorded (0 or 1). -/
def releaseOne (time : Int) (s : St) : St × Nat :=
  if s.next_release ≤ time then
    let missInc : Nat := if 0 < s.remaining ∧ s.abs_deadline < time then 1 else 0
    (⟨s.C, s.T, s.D, s.next_release + s.T, s.C, time + s.D, s.misses + missInc⟩, missInc)
  else (s, 0)

/-- The release loop over the whole state dict (app.py lines 87-96), also
returning the total number of misses added to `recent_misses`. -/
def releaseAll (time : Int) : List (String × St) → List (String × St) × Nat
  | [] => ([], 0)
  | (n, s) :: rest =>
    let p := releaseOne time s
    let q := releaseAll time rest
    ((n, p.1) :: q.1, p.2 + q.2)

/-- `ready` (app.py line 99): the tasks with remaining execution, in dict
(= insertion) order.  We keep the full entries; keys are unique in a dict so
this carries the same information as the list of names. -/
def readyList (st : List (String × St)) : List (String × St) :=
  st.filter (fun p => 0 < p.2.remaining)

/-- Python `min(hd :: tl, key=f)`: left fold keeping the current best,
replacing it only on a strict decrease, so the first minimal element wins. -/
def pyMin (key : St → Int) (hd : String × St) (tl : List (String × St)) : String × St :=
  tl.foldl (fun best x => if key x.2 < key best.2 then x else best) hd

/-- The whole mutable state of one simulation run. -/
structure SimSt where
  state : List (String × St)
  schedule : List (Nat × String)
  total_idle : Nat
  recent_misses : Nat
  current_algo : Algo
deriving Repr, DecidableEq

/-- The initial simulation state (app.py lines 53-83): base algorithm chosen
from utilization in Adaptive mode, zeroed runtime dict, empty schedule. -/
def initSim (tasks : List Task) (mode : Mode) (util_threshold : ℚ) : SimSt :=
  let U := compute_utilization tasks
  let algo : Algo :=
    match mode with
    | Mode.RMS => Algo.RMS
    | Mode.EDF => Algo.EDF
    | Mode.Adaptive => if U ≤ util_threshold then Algo.RMS else Algo.EDF
  ⟨initState tasks, [], 0, 0, algo⟩

/-- Phase 1 of a time unit (app.py lines 87-96): release due jobs and
accumulate the misses into `recent_misses`. -/
def stepRelease (time : Nat) (σ : SimSt) : SimSt :=
  let p := releaseAll (time : Int) σ.state
  { σ with state := p.1, recent_misses := σ.recent_misses + p.2 }

/-- Phase 2 (app.py lines 101-105): in Adaptive mode, switch to EDF once
`recent_misses >= 3`. -/
def stepCheck (mode : Mode) (σ : SimSt) : SimSt :=
  if mode = Mode.Adaptive ∧ 3 ≤ σ.recent_misses then { σ with current_algo := Algo.EDF } else σ

/-- The key `min` minimizes in the dispatch step: period for RMS, absolute
deadline for EDF (app.py lines 113-118). -/
def algoKey : Algo → St → Int
  | Algo.RMS => fun s => s.T
  | Algo.EDF => fun s => s.abs_deadline

/-- Phase 3 (app.py lines 107-121): emit an IDLE slot when nothing is ready,
otherwise dispatch the `min`-chosen ready task and decrement its remaining
execution. -/
def stepDispatch (time : Nat) (σ : SimSt) : SimSt :=
  match readyList σ.state with
  | [] =>
    { σ with schedule := σ.schedule ++ [(time, "IDLE")], total_idle := σ.total_idle + 1 }
  | r :: rs =>
    let chosen := pyMin (algoKey σ.current_algo) r rs
    { σ with
      schedule := σ.schedule ++ [(time, chosen.1)],
      state := σ.state.map (fun p =>
        if p.1 = chosen.1 then (p.1, { p.2 with remaining := p.2.remaining - 1 }) else p) }

/-- One iteration of the `for time in range(sim_time)` loop (app.py 85-121). -/
def simStep (mode : Mode) (time : Nat) (σ : SimSt) : SimSt :=
  stepDispatch time (stepCheck mode (stepRelease time σ))

/-- The first `n` iterations of the simulation loop. -/
def runSteps (mode : Mode) : Nat → SimSt → SimSt
  | 0, σ => σ
  | n + 1, σ => simStep mode n (runSteps mode n σ)

/-- Everything `simulate_scheduler` returns (app.py line 127). -/
structure SimResult where
  schedule : List (Nat × String)
  total_misses : List (String × Nat)
  util_percent : ℚ
  U : ℚ
  used_algo : Algo
deriving Repr, DecidableEq

/-- The two ways a run can fail: the handler's rejection of non-positive
parameters (app.py lines 214-216) and the `ZeroDivisionError` raised by
`total_idle / sim_time` when `sim_time = 0` (app.py line 125). -/
inductive SimError where
  | invalidInput
  | zeroDivision
deriving Repr, DecidableEq

/-- `simulate_scheduler` (app.py lines 34-127): run the loop for `sim_time`
units, then collect per-task misses and the utilization statistics.  The
final division raises `ZeroDivisionError` when `sim_time = 0`. -/
def simulate_scheduler (tasks : List Task) (mode : Mode) (sim_time : Nat)
    (util_threshold : ℚ) : Except SimError SimResult :=
  let U := compute_utilization tasks
  let σ := runSteps mode sim_time (initSim tasks mode util_threshold)
  if sim_time = 0 then Except.error SimError.zeroDivision
  else Except.ok
    ⟨σ.schedule,
     σ.state.map (fun p => (p.1, p.2.misses)),
     100 * (1 - (σ.total_idle : ℚ) / (sim_time : ℚ)),
     U,
     σ.current_algo⟩

/-- The test the "Run Simulation" handler applies to every row before calling
`simulate_scheduler` (app.py line 214): all of C, T, D must be positive.
Duplicate names are never checked. -/
def taskOk (t : Task) : Bool :=
  decide (0 < t.C) && decide (0 < t.T) && decide (0 < t.D)

/-- The spec's `simulate` entry point: the handler's validation (app.py
lines 209-216) followed by `simulate_scheduler` (app.py lines 231-236). -/
def simulate (tasks : List Task) (mode : Mode) (sim_time : Nat)
    (util_threshold : ℚ) : Except SimError SimResult :=
  if tasks.all taskOk then simulate_scheduler tasks mode sim_time util_threshold
  else Except.error SimError.invalidInput

/-- One trace segment `(task, start, end)` with `end` exclusive. -/
structure Seg where
  task : String
  start : Nat
  stop : Nat
deriving Repr, DecidableEq

/-- The loop of app.py lines 142-152 with `schedule[i-1] = prev` already in
hand: close the current segment whenever the task changes, and close the last
segment after the loop using the final slot's time. -/
def segmentLoop (prev : Nat × String) (start : Nat) : List (Nat × String) → List Seg
  | [] => [⟨prev.2, start, prev.1 + 1⟩]
  | (t, task) :: rest =>
    if task ≠ prev.2 then ⟨prev.2, start, prev.1 + 1⟩ :: segmentLoop (t, task) t rest
    else segmentLoop (t, task) start rest

/-- The segment collection of `plot_gantt` (app.py lines 134-152): an empty
schedule produces no segments (early return at line 137); otherwise scan from
the first slot merging equal consecutive assignments. -/
def segment : List (Nat × String) → List Seg
  | [] => []
  | s :: rest => segmentLoop s s.1 rest

/-- Re-expand one segment into its per-unit slots. -/
def expandSeg (g : Seg) : List (Nat × String) :=
  (List.range (g.stop - g.start)).map (fun i => (g.start + i, g.task))

/-- Re-expand a segment list unit by unit. -/
def expandSegs (gs : List Seg) : List (Nat × String) :=
  gs.flatMap expandSeg

/-- The slots of a schedule carry consecutive times starting at `t0`
("one slot per time unit, in time order"). -/
def consecFrom (t0 : Nat) : List (Nat × String) → Prop
  | [] => True
  | (t, _) :: rest => t = t0 ∧ consecFrom (t0 + 1) rest

/-! ## Basic lemmas -/

/-- The summand of `compute_utilization`. -/
def utilTerm (t : Task) : ℚ :=
  if (0 : ℚ) < (t.T : ℚ) then (t.C : ℚ) / (t.T : ℚ) else 0

theorem compute_utilization_foldl (l : List Task) (a : ℚ) :
    l.foldl (fun total t => if (0 : ℚ) < (t.T : ℚ) then total + (t.C : ℚ) / (t.T : ℚ) else total) a
      = a + (l.map utilTerm).sum := by
  induction l generalizing a with
  | nil => simp
  | cons t ts ih =>
    rw [List.foldl_cons, ih, List.map_cons, List.sum_cons]
    unfold utilTerm
    by_cases h : (0 : ℚ) < (t.T : ℚ)
    · simp only [if_pos h]
      ring
    · simp only [if_neg h]
      ring

theorem compute_utilization_eq_sum (l : List Task) :
    compute_utilization l = (l.map utilTerm).sum := by
  unfold compute_utilization
  rw [compute_utilization_foldl]
  simp

/-! ## C7 -/

/-- C7 counterexample: the program accumulates IEEE-754 doubles, and float
addition is not associative, so `compute_utilization` as actually computed
is NOT invariant to task reordering.  At the valid task set with
`C/T = 1/10, 1/5, 3/10`, declaration order gives the double
`0.6000000000000001 = 5404319552844596 / 2^53` (Python:
`0.1 + 0.2 + 0.3`), while the reverse order gives `0.6 =
5404319552844595 / 2^53` (Python: `0.3 + 0.2 + 0.1`). -/
theorem compute_utilization_fp_not_perm :
    ([⟨"T1", 1, 10, 10⟩, ⟨"T2", 1, 5, 5⟩, ⟨"T3", 3, 10, 10⟩] : List Task).Perm
      [⟨"T3", 3, 10, 10⟩, ⟨"T2", 1, 5, 5⟩, ⟨"T1", 1, 10, 10⟩] ∧
    compute_utilization_fp [⟨"T1", 1, 10, 10⟩, ⟨"T2", 1, 5, 5⟩, ⟨"T3", 3, 10, 10⟩]
      = Rat.divInt 5404319552844596 (2 ^ 53) ∧
    compute_utilization_fp [⟨"T3", 3, 10, 10⟩, ⟨"T2", 1, 5, 5⟩, ⟨"T1", 1, 10, 10⟩]
      = Rat.divInt 5404319552844595 (2 ^ 53) ∧
    compute_utilization_fp [⟨"T1", 1, 10, 10⟩, ⟨"T2", 1, 5, 5⟩, ⟨"T3", 3, 10, 10⟩]
      ≠ compute_utilization_fp [⟨"T3", 3, 10, 10⟩, ⟨"T2", 1, 5, 5⟩, ⟨"T1", 1, 10, 10⟩] := by
  refine ⟨by decide, by decide, by decide, by decide⟩

/-- C7 amended: the exact rational value of `Σ C/T` (non-positive periods
skipped) is invariant under permutation of the task list; the float-level
accumulation is not (see the counterexample above), so invariance holds only
for the ideal value. -/
theorem compute_utilization_perm (l l' : List Task) (h : l.Perm l') :
    compute_utilization l = compute_utilization l' := by
  rw [compute_utilization_eq_sum, compute_utilization_eq_sum]
  exact (h.map utilTerm).sum_eq

theorem compute_utilization_perm_witness :
    ([⟨"A", 1, 2, 3⟩, ⟨"B", 2, 5, 5⟩] : List Task).Perm [⟨"B", 2, 5, 5⟩, ⟨"A", 1, 2, 3⟩] ∧
    compute_utilization [⟨"A", 1, 2, 3⟩, ⟨"B", 2, 5, 5⟩]
      = compute_utilization [⟨"B", 2, 5, 5⟩, ⟨"A", 1, 2, 3⟩] :=
  ⟨List.Perm.swap _ _ _, compute_utilization_perm _ _ (List.Perm.swap _ _ _)⟩

/-! ## C8 -/

/-- C8: with `sim_time = 0` the simulator always hits the division by zero
at app.py line 125 (modelled as the `zeroDivision` error), for every task
list — also through the validated `simulate` entry point when the tasks are
valid — and with any positive `sim_time` it always returns a result. -/
theorem simulate_scheduler_zero_time :
    (∀ tasks mode θ, simulate_scheduler tasks mode 0 θ = Except.error SimError.zeroDivision)
    ∧ (∀ tasks mode θ, tasks.all taskOk = true →
        simulate tasks mode 0 θ = Except.error SimError.zeroDivision)
    ∧ (∀ tasks mode n θ, 0 < n → ∃ r, simulate_scheduler tasks mode n θ = Except.ok r) := by
  refine ⟨fun tasks mode θ => rfl, fun tasks mode θ h => ?_, fun tasks mode n θ hn => ?_⟩
  · unfold simulate
    rw [if_pos h]
    rfl
  · unfold simulate_scheduler
    rw [if_neg hn.ne']
    exact ⟨_, rfl⟩

theorem simulate_scheduler_zero_time_witness :
    (0 : Nat) < 2 ∧
    ∃ r, simulate_scheduler [⟨"A", 1, 2, 2⟩] Mode.RMS 2 (7/10) = Except.ok r :=
  ⟨by decide, simulate_scheduler_zero_time.2.2 [⟨"A", 1, 2, 2⟩] Mode.RMS 2 (7/10) (by decide)⟩

/-! ## C2 -/

/-- C2 counterexample: a task list with a duplicated name and all-positive
parameters is NOT rejected — `simulate` succeeds, contradicting the claim
that duplicate names cause an InvalidInput failure.  (The handler at app.py
lines 209-229 checks only positivity; the state dict silently overwrites the
earlier entry.) -/
theorem simulate_duplicate_names_accepted :
    ¬ (([⟨"A", 1, 2, 2⟩, ⟨"A", 1, 2, 2⟩] : List Task).map Task.Name).Nodup ∧
    (simulate [⟨"A", 1, 2, 2⟩, ⟨"A", 1, 2, 2⟩] Mode.RMS 5 (7/10)).isOk = true := by
  constructor
  · decide
  · rfl

/-- C2 amended: `simulate` fails with InvalidInput iff some task has a
non-positive ExecutionTime, Period or Deadline; duplicate names are not
rejected.  On every input with all parameters positive and positive
`sim_time` it returns a SimulationResult. -/
theorem simulate_invalid_input_iff :
    ∀ tasks mode n θ,
      (simulate tasks mode n θ = Except.error SimError.invalidInput ↔
        ∃ t ∈ tasks, t.C ≤ 0 ∨ t.T ≤ 0 ∨ t.D ≤ 0)
      ∧ (0 < n → (∀ t ∈ tasks, 0 < t.C ∧ 0 < t.T ∧ 0 < t.D) →
          ∃ r, simulate tasks mode n θ = Except.ok r) := by
  intro tasks mode n θ
  have hok : ∀ t : Task, taskOk t = true ↔ 0 < t.C ∧ 0 < t.T ∧ 0 < t.D := by
    intro t
    simp [taskOk, and_assoc]
  have hbad : ∀ t : Task, ¬ taskOk t = true ↔ t.C ≤ 0 ∨ t.T ≤ 0 ∨ t.D ≤ 0 := by
    intro t
    rw [hok t, not_and_or, not_and_or, not_lt, not_lt, not_lt]
  constructor
  · by_cases h : tasks.all taskOk = true
    · constructor
      · intro habs
        exfalso
        unfold simulate at habs
        rw [if_pos h] at habs
        unfold simulate_scheduler at habs
        by_cases hn : n = 0
        · rw [if_pos hn] at habs
          simp at habs
        · rw [if_neg hn] at habs
          simp at habs
      · rintro ⟨t, ht, hle⟩
        rw [List.all_eq_true] at h
        exact absurd (h t ht) ((hbad t).mpr hle)
    · constructor
      · intro _
        rw [List.all_eq_true] at h
        push_neg at h
        obtain ⟨t, ht, htk⟩ := h
        exact ⟨t, ht, (hbad t).mp htk⟩
      · intro _
        unfold simulate
        rw [if_neg h]
  · intro hn hpos
    have hall : tasks.all taskOk = true := by
      rw [List.all_eq_true]
      intro t ht
      exact (hok t).mpr (hpos t ht)
    unfold simulate
    rw [if_pos hall]
    unfold simulate_scheduler
    rw [if_neg hn.ne']
    exact ⟨_, rfl⟩

theorem simulate_invalid_input_iff_witness :
    (0 : Nat) < 3 ∧
    (∀ t ∈ ([⟨"B", 1, 2, 3⟩] : List Task), 0 < t.C ∧ 0 < t.T ∧ 0 < t.D) ∧
    ∃ r, simulate [⟨"B", 1, 2, 3⟩] Mode.EDF 3 (1/2) = Except.ok r :=
  ⟨by decide, by decide,
    (simulate_invalid_input_iff [⟨"B", 1, 2, 3⟩] Mode.EDF 3 (1/2)).2 (by decide) (by decide)⟩

/-! ## C6: trace segmentation -/

theorem segmentLoop_head (rest : List (Nat × String)) :
    ∀ (prev : Nat × String) (start : Nat),
      ∃ stop tail, segmentLoop prev start rest = ⟨prev.2, start, stop⟩ :: tail := by
  induction rest with
  | nil => exact fun prev start => ⟨prev.1 + 1, [], rfl⟩
  | cons x rest ih =>
    intro prev start
    obtain ⟨t, task⟩ := x
    by_cases h : task ≠ prev.2
    · exact ⟨prev.1 + 1, segmentLoop (t, task) t rest, by rw [segmentLoop, if_pos h]⟩
    · push_neg at h
      obtain ⟨stop, tail, htail⟩ := ih (t, task) start
      refine ⟨stop, tail, ?_⟩
      rw [segmentLoop, if_neg (by simpa using h), htail, h]

theorem segmentLoop_chain (rest : List (Nat × String)) :
    ∀ (prev : Nat × String) (start : Nat),
      List.Chain' (fun a b => a.task ≠ b.task) (segmentLoop prev start rest) := by
  induction rest with
  | nil => exact fun prev start => List.chain'_singleton _
  | cons x rest ih =>
    intro prev start
    obtain ⟨t, task⟩ := x
    by_cases h : task ≠ prev.2
    · rw [segmentLoop, if_pos h]
      obtain ⟨stop, tail, htail⟩ := segmentLoop_head rest (t, task) t
      rw [htail]
      have hch := ih (t, task) t
      rw [htail] at hch
      exact List.chain'_cons.mpr ⟨fun he => h he.symm, hch⟩
    · rw [segmentLoop, if_neg h]
      exact ih (t, task) start

theorem expandSeg_snoc (task : String) (start stop : Nat) (h : start ≤ stop) :
    expandSeg ⟨task, start, stop + 1⟩ = expandSeg ⟨task, start, stop⟩ ++ [(stop, task)] := by
  unfold expandSeg
  have h1 : stop + 1 - start = (stop - start) + 1 := by omega
  rw [h1, List.range_succ, List.map_append]
  simp
  omega

theorem segmentLoop_expand (rest : List (Nat × String)) :
    ∀ (t : Nat) (task : String) (start : Nat), start ≤ t → consecFrom (t + 1) rest →
      expandSegs (segmentLoop (t, task) start rest) = expandSeg ⟨task, start, t + 1⟩ ++ rest := by
  induction rest with
  | nil =>
    intro t task start _ _
    simp [segmentLoop, expandSegs]
  | cons x rest ih =>
    intro t task start hle hc
    obtain ⟨t1, a⟩ := x
    obtain ⟨ht1, hc1⟩ := hc
    subst ht1
    by_cases h : a ≠ task
    · rw [segmentLoop, if_pos h]
      unfold expandSegs
      rw [List.flatMap_cons]
      have := ih (t + 1) a (t + 1) le_rfl hc1
      unfold expandSegs at this
      rw [this]
      have hone : expandSeg ⟨a, t + 1, t + 1 + 1⟩ = [(t + 1, a)] := by
        simp [expandSeg, show List.range 1 = [0] from rfl]
      rw [hone]
      simp
    · push_neg at h
      rw [segmentLoop, if_neg (by simpa using h)]
      have := ih (t + 1) a start (by omega) hc1
      rw [this, h]
      rw [expandSeg_snoc task start (t + 1) (by omega)]
      simp

/-- C6: re-expanding the segmentation of any per-unit, time-ordered schedule
reconstructs the schedule exactly; consecutive segments never share an
Assignment; the empty schedule segments to nothing; a single slot yields one
unit-length segment. -/
theorem segment_round_trip :
    (∀ (sched : List (Nat × String)) (t0 : Nat),
        consecFrom t0 sched → expandSegs (segment sched) = sched)
    ∧ (∀ sched : List (Nat × String),
        List.Chain' (fun a b => a.task ≠ b.task) (segment sched))
    ∧ segment [] = []
    ∧ (∀ (t : Nat) (a : String), segment [(t, a)] = [⟨a, t, t + 1⟩]) := by
  refine ⟨?_, ?_, rfl, fun t a => rfl⟩
  · intro sched t0 hc
    match sched with
    | [] => rfl
    | (t, task) :: rest =>
      obtain ⟨ht, hrest⟩ := hc
      subst ht
      rw [segment, segmentLoop_expand rest t task t le_rfl hrest]
      have : expandSeg ⟨task, t, t + 1⟩ = [(t, task)] := by
        simp [expandSeg, show List.range 1 = [0] from rfl]
      rw [this]
      rfl
  · intro sched
    match sched with
    | [] => exact List.chain'_nil
    | s :: rest => exact segmentLoop_chain rest s s.1

theorem segment_round_trip_witness :
    consecFrom 0 [(0, "A"), (1, "A"), (2, "B")] ∧
    expandSegs (segment [(0, "A"), (1, "A"), (2, "B")]) = [(0, "A"), (1, "A"), (2, "B")] :=
  ⟨by simp [consecFrom], segment_round_trip.1 [(0, "A"), (1, "A"), (2, "B")] 0 (by simp [consecFrom])⟩

/-! ## Release-step lemmas -/

theorem releaseAll_eq_map (time : Int) (st : List (String × St)) :
    (releaseAll time st).1 = st.map (fun p =>
      (p.1, if p.2.next_release ≤ time then
              (⟨p.2.C, p.2.T, p.2.D, p.2.next_release + p.2.T, p.2.C, time + p.2.D,
                p.2.misses + (if 0 < p.2.remaining ∧ p.2.abs_deadline < time then 1 else 0)⟩ : St)
            else p.2)) := by
  induction st with
  | nil => rfl
  | cons p st ih =>
    obtain ⟨n, s⟩ := p
    show ((n, (releaseOne time s).1) :: (releaseAll time st).1) = _
    rw [List.map_cons, ih]
    congr 1
    unfold releaseOne
    by_cases h : s.next_release ≤ time
    · rw [if_pos h, if_pos h]
    · rw [if_neg h, if_neg h]

theorem releaseAll_count (time : Int) (st : List (String × St)) :
    (releaseAll time st).2 = (st.map (fun p =>
      if p.2.next_release ≤ time ∧ 0 < p.2.remaining ∧ p.2.abs_deadline < time
      then 1 else 0)).sum := by
  induction st with
  | nil => rfl
  | cons p st ih =>
    obtain ⟨n, s⟩ := p
    show (releaseOne time s).2 + (releaseAll time st).2 = _
    rw [List.map_cons, List.sum_cons, ih]
    congr 1
    unfold releaseOne
    by_cases h : s.next_release ≤ time
    · rw [if_pos h]
      by_cases h2 : 0 < s.remaining ∧ s.abs_deadline < time
      · rw [if_pos h2, if_pos ⟨h, h2⟩]
      · rw [if_neg h2, if_neg (fun hc => h2 hc.2)]
    · rw [if_neg h, if_neg (fun hc => h hc.1)]

theorem stepRelease_fields (t : Nat) (σ : SimSt) :
    (stepRelease t σ).state = (releaseAll (t : Int) σ.state).1
    ∧ (stepRelease t σ).recent_misses = σ.recent_misses + (releaseAll (t : Int) σ.state).2
    ∧ (stepRelease t σ).schedule = σ.schedule
    ∧ (stepRelease t σ).total_idle = σ.total_idle
    ∧ (stepRelease t σ).current_algo = σ.current_algo :=
  ⟨rfl, rfl, rfl, rfl, rfl⟩

theorem releaseAll_keys (time : Int) (st : List (String × St)) :
    (releaseAll time st).1.map Prod.fst = st.map Prod.fst := by
  rw [releaseAll_eq_map, List.map_map]
  rfl

theorem releaseOne_misses (time : Int) (s : St) :
    (releaseOne time s).1.misses = s.misses + (releaseOne time s).2 := by
  unfold releaseOne
  by_cases h : s.next_release ≤ time
  · rw [if_pos h]
  · rw [if_neg h]
    rfl

theorem releaseAll_misses_sum (time : Int) (st : List (String × St)) :
    ((releaseAll time st).1.map (fun p => p.2.misses)).sum
      = (st.map (fun p => p.2.misses)).sum + (releaseAll time st).2 := by
  induction st with
  | nil => rfl
  | cons p st ih =>
    obtain ⟨n, s⟩ := p
    show (((n, (releaseOne time s).1) :: (releaseAll time st).1).map (fun p => p.2.misses)).sum = _
    simp only [List.map_cons, List.sum_cons]
    rw [ih]
    show (releaseOne time s).1.misses + _ = _ + ((releaseOne time s).2 + (releaseAll time st).2)
    rw [releaseOne_misses]
    omega

/-! ## `pyMin` lemmas -/

theorem pyMin_cons (key : St → Int) (hd x : String × St) (tl : List (String × St)) :
    pyMin key hd (x :: tl) = pyMin key (if key x.2 < key hd.2 then x else hd) tl := rfl

theorem pyMin_mem (key : St → Int) :
    ∀ (tl : List (String × St)) (hd : String × St), pyMin key hd tl ∈ hd :: tl := by
  intro tl
  induction tl with
  | nil => exact fun hd => List.mem_singleton.mpr rfl
  | cons x tl ih =>
    intro hd
    rw [pyMin_cons]
    rcases List.mem_cons.mp (ih (if key x.2 < key hd.2 then x else hd)) with h1 | h1
    · rw [h1]
      by_cases h : key x.2 < key hd.2
      · simp [h]
      · simp [h]
    · exact List.mem_cons.mpr (Or.inr (List.mem_cons.mpr (Or.inr h1)))

theorem pyMin_le (key : St → Int) :
    ∀ (tl : List (String × St)) (hd : String × St),
      ∀ p ∈ hd :: tl, key (pyMin key hd tl).2 ≤ key p.2 := by
  intro tl
  induction tl with
  | nil =>
    intro hd p hp
    rw [List.mem_singleton] at hp
    subst hp
    exact le_refl _
  | cons x tl ih =>
    intro hd p hp
    rw [pyMin_cons]
    have hble : key (if key x.2 < key hd.2 then x else hd).2 ≤ key hd.2
        ∧ key (if key x.2 < key hd.2 then x else hd).2 ≤ key x.2 := by
      by_cases h : key x.2 < key hd.2
      · rw [if_pos h]
        exact ⟨le_of_lt h, le_refl _⟩
      · rw [if_neg h]
        exact ⟨le_refl _, le_of_not_lt h⟩
    have hself := ih (if key x.2 < key hd.2 then x else hd) _
      (List.mem_cons_self (if key x.2 < key hd.2 then x else hd) tl)
    rcases List.mem_cons.mp hp with h1 | h1
    · subst h1
      exact le_trans hself hble.1
    · rcases List.mem_cons.mp h1 with h2 | h2
      · subst h2
        exact le_trans hself hble.2
      · exact ih _ p (List.mem_cons.mpr (Or.inr h2))

theorem pyMin_first (key : St → Int) :
    ∀ (tl : List (String × St)) (hd : String × St),
      ∃ l1 l2, hd :: tl = l1 ++ (pyMin key hd tl) :: l2
        ∧ ∀ p ∈ l1, key (pyMin key hd tl).2 < key p.2 := by
  intro tl
  induction tl with
  | nil => exact fun hd => ⟨[], [], rfl, by simp⟩
  | cons x tl ih =>
    intro hd
    by_cases h : key x.2 < key hd.2
    · obtain ⟨l1, l2, heq, hlt⟩ := ih x
      rw [pyMin_cons, if_pos h]
      refine ⟨hd :: l1, l2, ?_, ?_⟩
      · rw [List.cons_append, ← heq]
      · intro p hp
        rcases List.mem_cons.mp hp with h1 | h1
        · subst h1
          exact lt_of_le_of_lt (pyMin_le key tl x x (List.mem_cons_self x tl)) h
        · exact hlt p h1
    · obtain ⟨l1, l2, heq, hlt⟩ := ih hd
      rw [pyMin_cons, if_neg h]
      cases l1 with
      | nil =>
        rw [List.nil_append] at heq
        injection heq with h1 h2
        refine ⟨[], x :: tl, ?_, by simp⟩
        rw [List.nil_append, ← h1]
      | cons q l1 =>
        rw [List.cons_append] at heq
        injection heq with h1 h2
        refine ⟨hd :: x :: l1, l2, ?_, ?_⟩
        · rw [List.cons_append, List.cons_append, ← h2]
        · intro p hp
          have hqlt : key (pyMin key hd tl).2 < key hd.2 := by
            have := hlt q (List.mem_cons_self q l1)
            rw [← h1] at this
            exact this
          rcases List.mem_cons.mp hp with hh | hh
          · subst hh
            exact hqlt
          · rcases List.mem_cons.mp hh with hh2 | hh2
            · subst hh2
              exact lt_of_lt_of_le hqlt (not_lt.mp h)
            · exact hlt p (List.mem_cons_of_mem q hh2)

/-! ## Keys of the state dict -/

theorem dictInsert_keys_subset (d : List (String × St)) (k : String) (v : St) :
    ∀ x ∈ (dictInsert d k v).map Prod.fst, x = k ∨ x ∈ d.map Prod.fst := by
  induction d with
  | nil =>
    intro x hx
    rw [dictInsert, List.map_cons, List.map_nil, List.mem_singleton] at hx
    exact Or.inl hx
  | cons p d ih =>
    obtain ⟨k1, v1⟩ := p
    intro x hx
    rw [dictInsert] at hx
    by_cases h : k1 = k
    · rw [if_pos h, List.map_cons] at hx
      rcases List.mem_cons.mp hx with h1 | h1
      · exact Or.inl h1
      · refine Or.inr ?_
        rw [List.map_cons]
        exact List.mem_cons_of_mem _ h1
    · rw [if_neg h, List.map_cons] at hx
      rcases List.mem_cons.mp hx with h1 | h1
      · refine Or.inr ?_
        rw [List.map_cons]
        exact List.mem_cons.mpr (Or.inl h1)
      · rcases ih x h1 with h2 | h2
        · exact Or.inl h2
        · refine Or.inr ?_
          rw [List.map_cons]
          exact List.mem_cons_of_mem _ h2

theorem initState_keys_subset (tasks : List Task) :
    ∀ x ∈ (initState tasks).map Prod.fst, x ∈ tasks.map Task.Name := by
  suffices h : ∀ (ts : List Task) (d : List (String × St)),
      ∀ x ∈ (ts.foldl (fun d t => dictInsert d t.Name ⟨t.C, t.T, t.D, 0, 0, 0, 0⟩) d).map Prod.fst,
        x ∈ d.map Prod.fst ∨ x ∈ ts.map Task.Name by
    intro x hx
    rcases h tasks [] x hx with h1 | h1
    · simp at h1
    · exact h1
  intro ts
  induction ts with
  | nil => exact fun d x hx => Or.inl hx
  | cons t ts ih =>
    intro d x hx
    rw [List.foldl_cons] at hx
    rcases ih _ x hx with h1 | h1
    · rcases dictInsert_keys_subset d t.Name _ x h1 with h2 | h2
      · exact Or.inr (by simp [h2])
      · exact Or.inl h2
    · exact Or.inr (List.mem_cons.mpr (Or.inr h1))

theorem dictInsert_notmem (d : List (String × St)) (k : String) (v : St)
    (h : k ∉ d.map Prod.fst) : dictInsert d k v = d ++ [(k, v)] := by
  induction d with
  | nil => rfl
  | cons p d ih =>
    obtain ⟨k1, v1⟩ := p
    rw [dictInsert, if_neg (fun he => h (by simp [he]))]
    rw [List.cons_append, ih (fun hm => h (by simp [hm]))]

theorem initState_keys_nodup (tasks : List Task) (hnd : (tasks.map Task.Name).Nodup) :
    (initState tasks).map Prod.fst = tasks.map Task.Name := by
  suffices h : ∀ (ts : List Task) (d : List (String × St)),
      (d.map Prod.fst ++ ts.map Task.Name).Nodup →
      (ts.foldl (fun d t => dictInsert d t.Name ⟨t.C, t.T, t.D, 0, 0, 0, 0⟩) d).map Prod.fst
        = d.map Prod.fst ++ ts.map Task.Name by
    have := h tasks [] (by simpa using hnd)
    simpa using this
  intro ts
  induction ts with
  | nil =>
    intro d _
    simp
  | cons t ts ih =>
    intro d h
    rw [List.foldl_cons]
    have hnot : t.Name ∉ d.map Prod.fst := by
      intro hmem
      exact (List.nodup_append.mp h).2.2 hmem (by simp)
    have hkeys : (dictInsert d t.Name ⟨t.C, t.T, t.D, 0, 0, 0, 0⟩).map Prod.fst
        = d.map Prod.fst ++ [t.Name] := by
      rw [dictInsert_notmem d t.Name _ hnot, List.map_append]
      rfl
    have hassoc : (d.map Prod.fst ++ [t.Name]) ++ ts.map Task.Name
        = d.map Prod.fst ++ (t :: ts).map Task.Name := by
      rw [List.append_assoc]
      rfl
    rw [ih (dictInsert d t.Name ⟨t.C, t.T, t.D, 0, 0, 0, 0⟩) (by rw [hkeys, hassoc]; exact h),
      hkeys, hassoc]

/-! ## Per-step structural lemmas -/

theorem stepCheck_fields (mode : Mode) (σ : SimSt) :
    (stepCheck mode σ).state = σ.state
    ∧ (stepCheck mode σ).schedule = σ.schedule
    ∧ (stepCheck mode σ).total_idle = σ.total_idle
    ∧ (stepCheck mode σ).recent_misses = σ.recent_misses := by
  unfold stepCheck
  by_cases h : mode = Mode.Adaptive ∧ 3 ≤ σ.recent_misses
  · rw [if_pos h]
    exact ⟨rfl, rfl, rfl, rfl⟩
  · rw [if_neg h]
    exact ⟨rfl, rfl, rfl, rfl⟩

theorem stepDispatch_state_keys (time : Nat) (σ : SimSt) :
    (stepDispatch time σ).state.map Prod.fst = σ.state.map Prod.fst := by
  unfold stepDispatch
  match h : readyList σ.state with
  | [] => rfl
  | r :: rs =>
    show (σ.state.map _).map Prod.fst = _
    rw [List.map_map]
    congr 1
    funext p
    by_cases hp : p.1 = (pyMin (algoKey σ.current_algo) r rs).1
    · simp [hp]
    · simp [hp]

theorem stepDispatch_misses (time : Nat) (σ : SimSt) :
    ((stepDispatch time σ).state.map (fun p => p.2.misses)) = σ.state.map (fun p => p.2.misses)
    ∧ (stepDispatch time σ).recent_misses = σ.recent_misses
    ∧ (stepDispatch time σ).current_algo = σ.current_algo := by
  unfold stepDispatch
  match h : readyList σ.state with
  | [] => exact ⟨rfl, rfl, rfl⟩
  | r :: rs =>
    refine ⟨?_, rfl, rfl⟩
    show (σ.state.map _).map _ = _
    rw [List.map_map]
    congr 1
    funext p
    by_cases hp : p.1 = (pyMin (algoKey σ.current_algo) r rs).1
    · simp [hp]
    · simp [hp]

theorem simStep_keys (mode : Mode) (t : Nat) (σ : SimSt) :
    (simStep mode t σ).state.map Prod.fst = σ.state.map Prod.fst := by
  unfold simStep
  rw [stepDispatch_state_keys, (stepCheck_fields mode _).1, (stepRelease_fields t σ).1,
    releaseAll_keys]

theorem runSteps_keys (mode : Mode) (n : Nat) (σ : SimSt) :
    (runSteps mode n σ).state.map Prod.fst = σ.state.map Prod.fst := by
  induction n with
  | zero => rfl
  | succ n ih => rw [runSteps, simStep_keys, ih]

theorem simStep_misses (mode : Mode) (t : Nat) (σ : SimSt) :
    (simStep mode t σ).recent_misses = σ.recent_misses + (releaseAll (t : Int) σ.state).2 := by
  unfold simStep
  rw [(stepDispatch_misses t _).2.1, (stepCheck_fields mode _).2.2.2,
    (stepRelease_fields t σ).2.1]

theorem runSteps_misses_mono (mode : Mode) (σ : SimSt) :
    ∀ m n, m ≤ n → (runSteps mode m σ).recent_misses ≤ (runSteps mode n σ).recent_misses := by
  intro m n h
  induction n with
  | zero =>
    rw [Nat.le_zero.mp h]
  | succ n ih =>
    rcases Nat.lt_or_ge m (n + 1) with h1 | h1
    · have := ih (Nat.lt_succ_iff.mp h1)
      rw [runSteps, simStep_misses]
      omega
    · rw [Nat.le_antisymm h h1]

theorem simStep_misses_eq_release (mode : Mode) (t : Nat) (σ : SimSt) :
    (simStep mode t σ).recent_misses = (stepRelease t σ).recent_misses := by
  unfold simStep
  rw [(stepDispatch_misses t _).2.1, (stepCheck_fields mode _).2.2.2]

theorem simStep_schedule (mode : Mode) (t : Nat) (σ : SimSt) :
    ∃ x, (simStep mode t σ).schedule = σ.schedule ++ [(t, x)]
      ∧ (x = "IDLE" ∨ x ∈ σ.state.map Prod.fst) := by
  unfold simStep
  have hsched2 : (stepCheck mode (stepRelease t σ)).schedule = σ.schedule := by
    rw [(stepCheck_fields mode _).2.1]
    exact (stepRelease_fields t σ).2.2.1
  have hkeys2 : (stepCheck mode (stepRelease t σ)).state.map Prod.fst
      = σ.state.map Prod.fst := by
    rw [(stepCheck_fields mode _).1, (stepRelease_fields t σ).1, releaseAll_keys]
  unfold stepDispatch
  split
  · exact ⟨"IDLE", by rw [hsched2], Or.inl rfl⟩
  · next r rs heq =>
    refine ⟨(pyMin (algoKey (stepCheck mode (stepRelease t σ)).current_algo) r rs).1,
      by rw [hsched2], Or.inr ?_⟩
    have hmem : pyMin (algoKey (stepCheck mode (stepRelease t σ)).current_algo) r rs
        ∈ readyList (stepCheck mode (stepRelease t σ)).state := by
      rw [heq]
      exact pyMin_mem _ rs r
    have hmem2 := List.mem_of_mem_filter hmem
    rw [← hkeys2]
    exact List.mem_map_of_mem Prod.fst hmem2

theorem runSteps_schedule_shape (tasks : List Task) (mode : Mode) (θ : ℚ) :
    ∀ n, ((runSteps mode n (initSim tasks mode θ)).schedule.map Prod.fst = List.range n)
      ∧ (∀ p ∈ (runSteps mode n (initSim tasks mode θ)).schedule,
          p.2 = "IDLE" ∨ p.2 ∈ tasks.map Task.Name) := by
  intro n
  induction n with
  | zero => exact ⟨rfl, fun p hp => absurd hp (List.not_mem_nil p)⟩
  | succ n ih =>
    obtain ⟨x, hx, hxmem⟩ := simStep_schedule mode n (runSteps mode n (initSim tasks mode θ))
    rw [runSteps]
    constructor
    · rw [hx, List.map_append, ih.1, List.range_succ]
      rfl
    · intro p hp
      rw [hx] at hp
      rcases List.mem_append.mp hp with h1 | h1
      · exact ih.2 p h1
      · rw [List.mem_singleton] at h1
        subst h1
        rcases hxmem with h2 | h2
        · exact Or.inl h2
        · refine Or.inr ?_
          rw [runSteps_keys mode n (initSim tasks mode θ)] at h2
          exact initState_keys_subset tasks x h2

/-! ## C3 -/

/-- C3: at every time unit, for every task due for release
(`NextReleaseTime ≤ t`): a miss is recorded (per-task MissCount and the
cumulative counter both incremented) exactly when `RemainingExecution > 0`
and `t > AbsoluteDeadline`, and afterwards `RemainingExecution = C`,
`AbsoluteDeadline = t + D`, `NextReleaseTime += T`, the static `C`, `T`, `D`
unchanged; tasks not yet due are left completely unchanged. -/
theorem releaseAll_release_spec :
    (∀ (time : Int) (st : List (String × St)),
      ((releaseAll time st).1 = st.map (fun p =>
        (p.1, if p.2.next_release ≤ time then
                (⟨p.2.C, p.2.T, p.2.D, p.2.next_release + p.2.T, p.2.C, time + p.2.D,
                  p.2.misses + (if 0 < p.2.remaining ∧ p.2.abs_deadline < time then 1 else 0)⟩ : St)
              else p.2))
      ∧ (releaseAll time st).2 = (st.map (fun p =>
          if p.2.next_release ≤ time ∧ 0 < p.2.remaining ∧ p.2.abs_deadline < time
          then 1 else 0)).sum))
    ∧ (∀ (t : Nat) (σ : SimSt),
        (stepRelease t σ).state = (releaseAll (t : Int) σ.state).1
        ∧ (stepRelease t σ).recent_misses = σ.recent_misses + (releaseAll (t : Int) σ.state).2) :=
  ⟨fun time st => ⟨releaseAll_eq_map time st, releaseAll_count time st⟩,
   fun _ _ => ⟨rfl, rfl⟩⟩

/-! ## C1 -/

/-- C1: for every task set and positive `sim_time`, the simulator returns a
result whose schedule has exactly `sim_time` slots bearing the times
`0, 1, …, sim_time - 1` in order, and every slot's assignment is IDLE or the
name of a supplied task. -/
theorem simulate_scheduler_schedule_shape (tasks : List Task) (mode : Mode) (n : Nat) (θ : ℚ)
    (hn : 0 < n) :
    ∃ r, simulate_scheduler tasks mode n θ = Except.ok r
      ∧ r.schedule.length = n
      ∧ r.schedule.map Prod.fst = List.range n
      ∧ (∀ p ∈ r.schedule, p.2 = "IDLE" ∨ p.2 ∈ tasks.map Task.Name) := by
  have hshape := runSteps_schedule_shape tasks mode θ n
  refine ⟨⟨(runSteps mode n (initSim tasks mode θ)).schedule,
           (runSteps mode n (initSim tasks mode θ)).state.map (fun p => (p.1, p.2.misses)),
           100 * (1 - ((runSteps mode n (initSim tasks mode θ)).total_idle : ℚ) / (n : ℚ)),
           compute_utilization tasks,
           (runSteps mode n (initSim tasks mode θ)).current_algo⟩, ?_, ?_, hshape.1, hshape.2⟩
  · unfold simulate_scheduler
    rw [if_neg hn.ne']
  · have := congrArg List.length hshape.1
    simpa using this

theorem simulate_scheduler_schedule_shape_witness :
    (0 : Nat) < 2 ∧
    ∃ r, simulate_scheduler [⟨"A", 1, 2, 2⟩] Mode.RMS 2 (1/2) = Except.ok r
      ∧ r.schedule.length = 2
      ∧ r.schedule.map Prod.fst = List.range 2
      ∧ (∀ p ∈ r.schedule, p.2 = "IDLE" ∨ p.2 ∈ ([⟨"A", 1, 2, 2⟩] : List Task).map Task.Name) :=
  ⟨by decide, simulate_scheduler_schedule_shape [⟨"A", 1, 2, 2⟩] Mode.RMS 2 (1/2) (by decide)⟩

/-! ## C4 -/

/-- C4: with a non-empty ready set, the dispatched task is the first ready
task (in the fixed dict order, which under unique names is declaration
order) attaining the minimal key — the Period under RMS, the
AbsoluteDeadline under EDF; the ready list is a sublist of the state list,
whose key order under unique names is the declaration order. -/
theorem stepDispatch_selects_min :
    (∀ (σ : SimSt) (time : Nat) (r : String × St) (rs : List (String × St)),
      readyList σ.state = r :: rs →
        ((stepDispatch time σ).schedule
            = σ.schedule ++ [(time, (pyMin (algoKey σ.current_algo) r rs).1)])
        ∧ pyMin (algoKey σ.current_algo) r rs ∈ readyList σ.state
        ∧ (∀ p ∈ readyList σ.state,
            algoKey σ.current_algo (pyMin (algoKey σ.current_algo) r rs).2
              ≤ algoKey σ.current_algo p.2)
        ∧ (∃ l1 l2, readyList σ.state = l1 ++ pyMin (algoKey σ.current_algo) r rs :: l2
            ∧ ∀ p ∈ l1, algoKey σ.current_algo (pyMin (algoKey σ.current_algo) r rs).2
                < algoKey σ.current_algo p.2))
    ∧ (∀ s : St, algoKey Algo.RMS s = s.T)
    ∧ (∀ s : St, algoKey Algo.EDF s = s.abs_deadline)
    ∧ (∀ st : List (String × St), (readyList st).Sublist st)
    ∧ (∀ tasks : List Task, (tasks.map Task.Name).Nodup →
        (initState tasks).map Prod.fst = tasks.map Task.Name) := by
  refine ⟨?_, fun s => rfl, fun s => rfl, fun st => List.filter_sublist st, initState_keys_nodup⟩
  intro σ time r rs h
  have hsched : (stepDispatch time σ).schedule
      = σ.schedule ++ [(time, (pyMin (algoKey σ.current_algo) r rs).1)] := by
    unfold stepDispatch
    split
    · next heq =>
      rw [h] at heq
      simp at heq
    · next r2 rs2 heq =>
      rw [h] at heq
      injection heq with h1 h2
      subst h1
      subst h2
      rfl
  refine ⟨hsched, ?_, ?_, ?_⟩
  · rw [h]
    exact pyMin_mem _ rs r
  · intro p hp
    rw [h] at hp
    exact pyMin_le _ rs r p hp
  · obtain ⟨l1, l2, heq2, hlt⟩ := pyMin_first (algoKey σ.current_algo) rs r
    exact ⟨l1, l2, by rw [h, heq2], hlt⟩

theorem stepDispatch_selects_min_witness :
    readyList (⟨[("A", ⟨1, 2, 2, 2, 1, 2, 0⟩), ("B", ⟨1, 3, 3, 3, 1, 3, 0⟩)], [], 0, 0,
        Algo.RMS⟩ : SimSt).state
      = ("A", ⟨1, 2, 2, 2, 1, 2, 0⟩) :: [("B", ⟨1, 3, 3, 3, 1, 3, 0⟩)] ∧
    ((["A", "B"] : List String).Nodup) ∧
    ((stepDispatch 0 (⟨[("A", ⟨1, 2, 2, 2, 1, 2, 0⟩), ("B", ⟨1, 3, 3, 3, 1, 3, 0⟩)], [], 0, 0,
        Algo.RMS⟩ : SimSt)).schedule
      = [] ++ [(0, (pyMin (algoKey Algo.RMS) ("A", ⟨1, 2, 2, 2, 1, 2, 0⟩)
          [("B", ⟨1, 3, 3, 3, 1, 3, 0⟩)]).1)]) ∧
    (initState [⟨"A", 1, 2, 2⟩, ⟨"B", 1, 3, 3⟩]).map Prod.fst
      = ([⟨"A", 1, 2, 2⟩, ⟨"B", 1, 3, 3⟩] : List Task).map Task.Name :=
  ⟨rfl, by decide,
   (stepDispatch_selects_min.1
     ⟨[("A", ⟨1, 2, 2, 2, 1, 2, 0⟩), ("B", ⟨1, 3, 3, 3, 1, 3, 0⟩)], [], 0, 0, Algo.RMS⟩ 0
     ("A", ⟨1, 2, 2, 2, 1, 2, 0⟩) [("B", ⟨1, 3, 3, 3, 1, 3, 0⟩)] rfl).1,
   stepDispatch_selects_min.2.2.2.2 [⟨"A", 1, 2, 2⟩, ⟨"B", 1, 3, 3⟩] (by decide)⟩

/-! ## C10 -/

/-- C10: the dispatch step with a non-empty ready set changes exactly the
chosen task's RemainingExecution, decreasing it by exactly 1, leaving every
other field and every other task's entry unchanged; with an empty ready set
the task state is untouched. -/
theorem stepDispatch_frame :
    ∀ (σ : SimSt) (time : Nat),
      (readyList σ.state = [] → (stepDispatch time σ).state = σ.state)
      ∧ (∀ r rs, readyList σ.state = r :: rs →
          ((stepDispatch time σ).state.length = σ.state.length)
          ∧ (∀ i, i < σ.state.length → i < (stepDispatch time σ).state.length →
              ∀ hi : i < σ.state.length, ∀ hi2 : i < (stepDispatch time σ).state.length,
              (stepDispatch time σ).state.get ⟨i, hi2⟩ =
                (if (σ.state.get ⟨i, hi⟩).1 = (pyMin (algoKey σ.current_algo) r rs).1
                 then ((σ.state.get ⟨i, hi⟩).1,
                   (⟨(σ.state.get ⟨i, hi⟩).2.C, (σ.state.get ⟨i, hi⟩).2.T,
                     (σ.state.get ⟨i, hi⟩).2.D, (σ.state.get ⟨i, hi⟩).2.next_release,
                     (σ.state.get ⟨i, hi⟩).2.remaining - 1,
                     (σ.state.get ⟨i, hi⟩).2.abs_deadline,
                     (σ.state.get ⟨i, hi⟩).2.misses⟩ : St))
                 else σ.state.get ⟨i, hi⟩))) := by
  intro σ time
  constructor
  · intro h
    unfold stepDispatch
    split
    · rfl
    · next r rs heq =>
      rw [h] at heq
      simp at heq
  · intro r rs h
    have hstate : (stepDispatch time σ).state = σ.state.map (fun p =>
        if p.1 = (pyMin (algoKey σ.current_algo) r rs).1
        then (p.1, { p.2 with remaining := p.2.remaining - 1 }) else p) := by
      unfold stepDispatch
      split
      · next heq =>
        rw [h] at heq
        simp at heq
      · next r2 rs2 heq =>
        rw [h] at heq
        injection heq with h1 h2
        subst h1
        subst h2
        rfl
    constructor
    · rw [hstate, List.length_map]
    · intro i _ _ hi hi2
      have hget := List.get_of_eq hstate ⟨i, hi2⟩
      rw [List.get_map] at hget
      rw [hget]

theorem stepDispatch_frame_witness :
    readyList (⟨[("A", ⟨1, 2, 2, 2, 1, 2, 0⟩)], [], 0, 0, Algo.RMS⟩ : SimSt).state
      = ("A", ⟨1, 2, 2, 2, 1, 2, 0⟩) :: [] ∧
    (stepDispatch 0 (⟨[("A", ⟨1, 2, 2, 2, 1, 2, 0⟩)], [], 0, 0, Algo.RMS⟩ : SimSt)).state.length
      = (⟨[("A", ⟨1, 2, 2, 2, 1, 2, 0⟩)], [], 0, 0, Algo.RMS⟩ : SimSt).state.length :=
  ⟨rfl, ((stepDispatch_frame ⟨[("A", ⟨1, 2, 2, 2, 1, 2, 0⟩)], [], 0, 0, Algo.RMS⟩ 0).2
      ("A", ⟨1, 2, 2, 2, 1, 2, 0⟩) [] rfl).1⟩

/-! ## C5: adaptive switching -/

theorem simStep_algo_adaptive (t : Nat) (σ : SimSt) :
    (simStep Mode.Adaptive t σ).current_algo =
      if 3 ≤ (simStep Mode.Adaptive t σ).recent_misses then Algo.EDF else σ.current_algo := by
  rw [simStep_misses_eq_release]
  unfold simStep
  rw [(stepDispatch_misses t _).2.2]
  unfold stepCheck
  by_cases h : 3 ≤ (stepRelease t σ).recent_misses
  · rw [if_pos (⟨rfl, h⟩ : Mode.Adaptive = Mode.Adaptive ∧ _), if_pos h]
  · rw [if_neg (fun hc => h hc.2), if_neg h]
    exact (stepRelease_fields t σ).2.2.2.2

theorem adaptive_runSteps_algo (σ0 : SimSt) :
    ∀ n, (runSteps Mode.Adaptive (n + 1) σ0).current_algo =
      if 3 ≤ (runSteps Mode.Adaptive (n + 1) σ0).recent_misses then Algo.EDF
      else σ0.current_algo := by
  intro n
  induction n with
  | zero => exact simStep_algo_adaptive 0 σ0
  | succ n ih =>
    have hstep := simStep_algo_adaptive (n + 1) (runSteps Mode.Adaptive (n + 1) σ0)
    rw [runSteps, hstep]
    by_cases h : 3 ≤ (simStep Mode.Adaptive (n + 1) (runSteps Mode.Adaptive (n + 1) σ0)).recent_misses
    · rw [if_pos h, if_pos h]
    · rw [if_neg h, ih]
      have hmono : (runSteps Mode.Adaptive (n + 1) σ0).recent_misses
          ≤ (simStep Mode.Adaptive (n + 1) (runSteps Mode.Adaptive (n + 1) σ0)).recent_misses := by
        rw [simStep_misses]
        omega
      rw [if_neg (fun hc => h (le_trans hc hmono)), if_neg h]

/-- C5: in Adaptive mode the initial rule is RMS iff the theoretical
utilization is at most the threshold; at every step the rule used is EDF
exactly when the cumulative (post-release, pre-dispatch) miss counter has
reached 3, and otherwise the initial rule; the counter never decreases, so
once it reaches 3 the rule is EDF at that step and every later one. -/
theorem adaptive_policy_switch :
    ∀ (tasks : List Task) (θ : ℚ),
      ((initSim tasks Mode.Adaptive θ).current_algo
          = if compute_utilization tasks ≤ θ then Algo.RMS else Algo.EDF)
      ∧ (∀ n, (runSteps Mode.Adaptive (n + 1) (initSim tasks Mode.Adaptive θ)).current_algo =
            if 3 ≤ (runSteps Mode.Adaptive (n + 1) (initSim tasks Mode.Adaptive θ)).recent_misses
            then Algo.EDF else (initSim tasks Mode.Adaptive θ).current_algo)
      ∧ (∀ n, (runSteps Mode.Adaptive (n + 1) (initSim tasks Mode.Adaptive θ)).recent_misses
            = (stepRelease n (runSteps Mode.Adaptive n (initSim tasks Mode.Adaptive θ))).recent_misses)
      ∧ (∀ m k, m ≤ k →
          (runSteps Mode.Adaptive m (initSim tasks Mode.Adaptive θ)).recent_misses
            ≤ (runSteps Mode.Adaptive k (initSim tasks Mode.Adaptive θ)).recent_misses)
      ∧ (∀ m k, m ≤ k →
          3 ≤ (runSteps Mode.Adaptive (m + 1) (initSim tasks Mode.Adaptive θ)).recent_misses →
          (runSteps Mode.Adaptive (k + 1) (initSim tasks Mode.Adaptive θ)).current_algo
            = Algo.EDF) := by
  intro tasks θ
  refine ⟨rfl, adaptive_runSteps_algo _, ?_, runSteps_misses_mono Mode.Adaptive _, ?_⟩
  · intro n
    rw [runSteps, simStep_misses_eq_release]
  · intro m k hmk h3
    have hmono := runSteps_misses_mono Mode.Adaptive (initSim tasks Mode.Adaptive θ)
      (m + 1) (k + 1) (by omega)
    rw [adaptive_runSteps_algo _ k, if_pos (le_trans h3 hmono)]

theorem adaptive_policy_switch_witness :
    (6 : Nat) ≤ 9 ∧
    3 ≤ (runSteps Mode.Adaptive 7 (initSim [⟨"A", 3, 2, 1⟩] Mode.Adaptive (9/10))).recent_misses ∧
    (runSteps Mode.Adaptive 10 (initSim [⟨"A", 3, 2, 1⟩] Mode.Adaptive (9/10))).current_algo
      = Algo.EDF :=
  ⟨by decide, by decide,
   (adaptive_policy_switch [⟨"A", 3, 2, 1⟩] (9/10)).2.2.2.2 6 9 (by decide) (by decide)⟩

/-! ## C9: cumulative counter equals the sum of per-task miss counts -/

theorem dictInsert_mem (d : List (String × St)) (k : String) (v : St) :
    ∀ p ∈ dictInsert d k v, p = (k, v) ∨ p ∈ d := by
  induction d with
  | nil =>
    intro p hp
    rw [dictInsert, List.mem_singleton] at hp
    exact Or.inl hp
  | cons q d ih =>
    obtain ⟨k1, v1⟩ := q
    intro p hp
    rw [dictInsert] at hp
    by_cases h : k1 = k
    · rw [if_pos h] at hp
      rcases List.mem_cons.mp hp with h1 | h1
      · exact Or.inl h1
      · exact Or.inr (List.mem_cons_of_mem _ h1)
    · rw [if_neg h] at hp
      rcases List.mem_cons.mp hp with h1 | h1
      · exact Or.inr (List.mem_cons.mpr (Or.inl h1))
      · rcases ih p h1 with h2 | h2
        · exact Or.inl h2
        · exact Or.inr (List.mem_cons_of_mem _ h2)

theorem initState_misses_zero (tasks : List Task) :
    ∀ p ∈ initState tasks, p.2.misses = 0 := by
  suffices h : ∀ (ts : List Task) (d : List (String × St)), (∀ p ∈ d, p.2.misses = 0) →
      ∀ p ∈ ts.foldl (fun d t => dictInsert d t.Name ⟨t.C, t.T, t.D, 0, 0, 0, 0⟩) d,
        p.2.misses = 0 by
    exact h tasks [] (fun p hp => absurd hp (List.not_mem_nil p))
  intro ts
  induction ts with
  | nil => exact fun d hd => hd
  | cons t ts ih =>
    intro d hd p hp
    rw [List.foldl_cons] at hp
    refine ih _ ?_ p hp
    intro q hq
    rcases dictInsert_mem d t.Name _ q hq with h1 | h1
    · rw [h1]
    · exact hd q h1

theorem stepRelease_sum_invariant (t : Nat) (σ : SimSt)
    (h : σ.recent_misses = (σ.state.map (fun p => p.2.misses)).sum) :
    (stepRelease t σ).recent_misses
      = ((stepRelease t σ).state.map (fun p => p.2.misses)).sum := by
  rw [(stepRelease_fields t σ).2.1, (stepRelease_fields t σ).1, releaseAll_misses_sum, h]

theorem simStep_sum_invariant (mode : Mode) (t : Nat) (σ : SimSt)
    (h : σ.recent_misses = (σ.state.map (fun p => p.2.misses)).sum) :
    (simStep mode t σ).recent_misses
      = ((simStep mode t σ).state.map (fun p => p.2.misses)).sum := by
  unfold simStep
  rw [(stepDispatch_misses t _).2.1, (stepDispatch_misses t _).1,
    (stepCheck_fields mode _).2.2.2, (stepCheck_fields mode _).1]
  exact stepRelease_sum_invariant t σ h

/-- C9: throughout the run — at every step boundary and immediately after
each release phase — the cumulative miss counter equals the sum of the
per-task MissCounts (both start at 0 and are incremented together), and the
cumulative counter never decreases. -/
theorem recent_misses_eq_sum :
    ∀ (tasks : List Task) (mode : Mode) (θ : ℚ) (n : Nat),
      ((runSteps mode n (initSim tasks mode θ)).recent_misses
          = ((runSteps mode n (initSim tasks mode θ)).state.map (fun p => p.2.misses)).sum)
      ∧ ((stepRelease n (runSteps mode n (initSim tasks mode θ))).recent_misses
          = ((stepRelease n (runSteps mode n (initSim tasks mode θ))).state.map
              (fun p => p.2.misses)).sum)
      ∧ (∀ m k, m ≤ k → (runSteps mode m (initSim tasks mode θ)).recent_misses
            ≤ (runSteps mode k (initSim tasks mode θ)).recent_misses) := by
  intro tasks mode θ n
  have hbase : ∀ j, (runSteps mode j (initSim tasks mode θ)).recent_misses
      = ((runSteps mode j (initSim tasks mode θ)).state.map (fun p => p.2.misses)).sum := by
    intro j
    induction j with
    | zero =>
      show (0 : Nat) = ((initState tasks).map (fun p => p.2.misses)).sum
      symm
      apply List.sum_eq_zero
      intro x hx
      rcases List.mem_map.mp hx with ⟨p, hp, hpx⟩
      rw [← hpx]
      exact initState_misses_zero tasks p hp
    | succ j ih =>
      rw [runSteps]
      exact simStep_sum_invariant mode j _ ih
  exact ⟨hbase n, stepRelease_sum_invariant n _ (hbase n), runSteps_misses_mono mode _⟩

theorem recent_misses_eq_sum_witness :
    (0 : Nat) ≤ 1 ∧
    (runSteps Mode.RMS 0 (initSim [⟨"A", 1, 2, 2⟩] Mode.RMS (1/2))).recent_misses
      ≤ (runSteps Mode.RMS 1 (initSim [⟨"A", 1, 2, 2⟩] Mode.RMS (1/2))).recent_misses :=
  ⟨by decide, (recent_misses_eq_sum [⟨"A", 1, 2, 2⟩] Mode.RMS (1/2) 0).2.2 0 1 (by decide)⟩

end Sched
